import Mathlib

/-!
Verification of the line-oriented Editor core of the `exa` repository and of
the isotope mapper module `exa/cms/isotope.py`.

The Editor implementation (`exa/cms/editors/editor.py`) is not part of the
provided sources; only its unit tests are.  All Editor definitions below are
therefore modelled from the specification (spec.md), with the unit tests
(`src/exa/cms/editors/tests/test_editor.py`,
`src/exa/management/tests/test_editor.py`) as the behavioural authority where
they pin down concrete results.  The isotope module is embedded directly from
`src/exa/cms/isotope.py`.
-/

namespace Exa

/-- Modelled from the spec: output normalization of the SourceResolver
(spec §4.1): split on universal newline boundaries, where each of
`\n`, `\r\n`, `\r` is a single break.  `acc` is the reversed prefix of the
current segment. -/
def splitUniv : List Char → List Char → List (List Char)
  | [], acc => [acc.reverse]
  | [c], acc =>
    if c = '\r' ∨ c = '\n' then [acc.reverse, []]
    else [(c :: acc).reverse]
  | c :: d :: rest, acc =>
    if c = '\r' then
      if d = '\n' then acc.reverse :: splitUniv rest []
      else acc.reverse :: splitUniv (d :: rest) []
    else if c = '\n' then
      acc.reverse :: splitUniv (d :: rest) []
    else
      splitUniv (d :: rest) (c :: acc)

/-- A character that terminates a line. -/
def isNL (c : Char) : Bool := c == '\n' || c == '\r'

/-- Whether a character sequence ends in a line terminator. -/
def endsNL (cs : List Char) : Bool :=
  match cs.getLast? with
  | some c => isNL c
  | none => false

/-- Modelled from the spec: the SourceResolver's normalization (spec §4.1):
split on universal newline boundaries and discard at most one trailing empty
segment caused by a final newline. -/
def textToLines (s : String) : List String :=
  let segs := splitUniv s.data []
  let segs := if endsNL s.data then segs.dropLast else segs
  segs.map List.asString

/-- Modelled from the spec: the Editor aggregate (spec §3): an ordered
sequence of lines, a persistent search cursor initialized to 0, and the
retained construction encoding name. -/
structure Editor where
  lines : List String
  cursor : Nat
  encoding : String
deriving Repr, DecidableEq

/-- Modelled from the spec: `Editor.__eq__`: two Editors are equal iff their
`lines` sequences are equal element-wise; encoding, source origin and cursor
are not compared. -/
def editorBeq (a b : Editor) : Bool := a.lines == b.lines

/-- Modelled from the spec: the shared tail of every construction path:
normalize the decoded text into lines, cursor 0. -/
def Editor.fromText (t : String) (enc : String) : Editor :=
  ⟨textToLines t, 0, enc⟩

/-- Modelled from the spec: a text encoding scheme: encoding fails on
unrepresentable text, decoding fails on invalid bytes (spec §4.1, §7). -/
structure Encoding where
  name : String
  encode : String → Option (List Nat)
  decode : List Nat → Option String

/-- Modelled from the spec: a compression container (gzip or bzip2) as a
compress/decompress byte-transformation pair (spec §4.1). -/
structure Codec where
  compress : List Nat → List Nat
  decompress : List Nat → List Nat

/-- A codec is lossless when decompression recovers the exact original
bytes; the spec asserts this of gzip and bzip2 (spec §6). -/
def Codec.lossless (c : Codec) : Prop :=
  ∀ b, c.decompress (c.compress b) = b

/-- Modelled from the spec: construction from a plain file: the file's bytes
are decoded with the default encoding (spec §4.1). -/
def editorFromFile (defEnc : Encoding) (bytes : List Nat) : Option Editor :=
  (defEnc.decode bytes).map fun t => Editor.fromText t defEnc.name

/-- Modelled from the spec: construction from a file with an explicit
alternate encoding override (spec §4.1). -/
def editorFromFileEnc (enc : Encoding) (bytes : List Nat) : Option Editor :=
  (enc.decode bytes).map fun t => Editor.fromText t enc.name

/-- Modelled from the spec: construction from a gzip-compressed file:
decompress, then decode with the default encoding (spec §4.1). -/
def editorFromGzip (defEnc : Encoding) (gz : Codec) (payload : List Nat) :
    Option Editor :=
  editorFromFile defEnc (gz.decompress payload)

/-- Modelled from the spec: construction from a bzip2-compressed file:
decompress, then decode with the default encoding (spec §4.1). -/
def editorFromBz2 (defEnc : Encoding) (bz : Codec) (payload : List Nat) :
    Option Editor :=
  editorFromFile defEnc (bz.decompress payload)

/-- Modelled from the spec: construction from a live stream, fully drained to
its text; streams are never decompressed (spec §4.1). -/
def editorFromStream (t : String) : Editor := Editor.fromText t "utf-8"

/-- Modelled from the spec: construction from a literal string; no I/O
occurs (spec §4.1). -/
def editorFromString (t : String) : Editor := Editor.fromText t "utf-8"

/-- The ISO-8859-1 (latin-1) encoding: every character with code point below
256 maps to the single byte of that value. -/
def latin1 : Encoding where
  name := "iso-8859-1"
  encode s :=
    if s.data.all (fun c => c.toNat < 256) then
      some (s.data.map Char.toNat)
    else none
  decode bs :=
    if bs.all (fun b => b < 256) then
      some (String.mk (bs.map fun b => Char.ofNat b))
    else none

/-- Modelled from the spec: splitting a (possibly multi-line) mutation input
into individual line elements before insertion (spec §4.2); uses the same
universal-newline normalization as construction. -/
def splitInput (t : String) : List String := textToLines t

/-- Modelled from the spec: `Editor.append`: splits the text into lines and
appends them at the end, preserving order (spec §4.2). -/
def Editor.append (e : Editor) (t : String) : Editor :=
  { e with lines := e.lines ++ splitInput t }

/-- Modelled from the spec: `Editor.prepend`: splits the text into lines and
inserts them at the beginning, preserving order (spec §4.2). -/
def Editor.prepend (e : Editor) (t : String) : Editor :=
  { e with lines := splitInput t ++ e.lines }

/-- Resolve a possibly negative index against the buffer length at the time
of the operation (spec §3): a negative index counts from the end. -/
def resolveIndex (n : Nat) (i : Int) : Int :=
  if i < 0 then i + n else i

/-- Modelled from the spec: `del editor[i]` / `delete_at` (spec §4.2):
removes exactly one line at the (possibly negative) index; an out-of-range
index on a possibly-empty buffer is an `IndexError`-kind failure (`none`),
never a silent clamp, and the buffer is not partially modified. -/
def Editor.delete_at (e : Editor) (i : Int) : Option Editor :=
  let n := e.lines.length
  let j := resolveIndex n i
  if 0 ≤ j ∧ j < n then
    some { e with lines := e.lines.eraseIdx j.toNat }
  else
    none

/-- Modelled from the spec: `editor[i]` read access with negative-index
support; out of range is an `IndexError`-kind failure (spec §4.2). -/
def Editor.getLine (e : Editor) (i : Int) : Option String :=
  let j := resolveIndex e.lines.length i
  if 0 ≤ j then e.lines.get? j.toNat else none

/-- Modelled from the spec: `remove_blank_lines` (spec §4.2): removes every
line whose content, after stripping surrounding whitespace, is empty;
preserves relative order of remaining lines. -/
def isBlank (l : String) : Bool := l.data.all Char.isWhitespace

/-- Modelled from the spec: `Editor.remove_blank_lines` (spec §4.2). -/
def Editor.remove_blank_lines (e : Editor) : Editor :=
  { e with lines := e.lines.filter (fun l => !isBlank l) }

/-- Does the pattern occur at the head of the character sequence? -/
def leadsWith : List Char → List Char → Bool
  | [], _ => true
  | _ :: _, [] => false
  | p :: ps, c :: cs => p == c && leadsWith ps cs

/-- Substring occurrence: `occursIn pat cs` holds iff `pat` occurs
contiguously somewhere in `cs`. -/
def occursIn (pat : List Char) : List Char → Bool
  | [] => leadsWith pat []
  | l@(_ :: cs) => leadsWith pat l || occursIn pat cs

/-- The scanning step of substring replacement: `skip` counts characters of
an already-matched occurrence of `old` still to be consumed; at `skip = 0`
the scanner tests for a fresh occurrence of `old`. -/
def replaceGo (old new : List Char) : Nat → List Char → List Char
  | _, [] => []
  | 0, c :: cs =>
    if old ≠ [] ∧ leadsWith old (c :: cs) then
      new ++ replaceGo old new (old.length - 1) cs
    else
      c :: replaceGo old new 0 cs
  | k + 1, _ :: cs => replaceGo old new k cs

/-- Modelled from the spec: exact substring replacement of `old` by `new`
within one line's text, every occurrence, scanning left to right
(spec §4.2). -/
def replaceAll (old new : List Char) (l : List Char) : List Char :=
  replaceGo old new 0 l

/-- String-level wrapper for `replaceAll`. -/
def replaceLine (l old new : String) : String :=
  (replaceAll old.data new.data l.data).asString

/-- Modelled from the spec: `Editor.replace(old, new, all=true)` (spec §4.2):
replaces every occurrence of `old` by `new` in every line; line count is
unchanged; returns the new Editor together with the count of lines
modified. -/
def Editor.replace (e : Editor) (old new : String) : Editor × Nat :=
  ({ e with lines := e.lines.map (fun l => replaceLine l old new) },
   (e.lines.filter (fun l => replaceLine l old new != l)).length)

/-- Modelled from the spec: `concat(editor_a, editor_b)` (spec §6): a new
Editor whose `lines` is the element-wise concatenation of the inputs' lines
in argument order; inputs are not mutated. -/
def concat (a b : Editor) : Editor :=
  ⟨a.lines ++ b.lines, 0, a.encoding⟩

/-- Scan up to the next closing brace; returns the enclosed characters and
the remainder after the brace, or `none` if the token is unclosed. -/
def untilBrace1 : List Char → Option (List Char × List Char)
  | [] => none
  | c :: r =>
    if c = '}' then some ([], r)
    else (untilBrace1 r).map fun p => (c :: p.1, p.2)

/-- Scan up to the next double closing brace; returns the enclosed characters
and the remainder after the braces, or `none` if the token is unclosed. -/
def untilBrace2 : List Char → Option (List Char × List Char)
  | [] => none
  | [_] => none
  | c :: d :: r =>
    if c = '}' ∧ d = '}' then some ([], r)
    else (untilBrace2 (d :: r)).map fun p => (c :: p.1, p.2)

/-- The single scan step of the TokenScanner, with explicit fuel (one unit
per character position ever visited, so `l.length` units always suffice);
fuel keeps the recursion structural. -/
def scanLineGo : Nat → List Char → List String × List String
  | 0, _ => ([], [])
  | _ + 1, [] => ([], [])
  | _ + 1, [_] => ([], [])
  | fuel + 1, c :: d :: rest =>
    if c = '{' ∧ d = '{' then
      match untilBrace2 rest with
      | some (name, r) =>
        let p := scanLineGo fuel r
        (p.1, name.asString :: p.2)
      | none => scanLineGo fuel rest
    else if c = '{' then
      match untilBrace1 (d :: rest) with
      | some (name, r) =>
        let p := scanLineGo fuel r
        (name.asString :: p.1, p.2)
      | none => scanLineGo fuel (d :: rest)
    else
      scanLineGo fuel (d :: rest)

/-- Modelled from the spec: the TokenScanner (spec §4.3): scan one line left
to right; a double-brace token contributes its name to the constants, a
single-brace token contributes its name to the templates; a double-brace
escape is consumed whole, so its inner name is never also reported as a
template.  Returns (template names, constant names) in occurrence order,
with multiplicity. -/
def scanLine (l : List Char) : List String × List String :=
  scanLineGo l.length l

/-- All single-brace template names occurring across the buffer, in order,
with multiplicity. -/
def rawTemplates (e : Editor) : List String :=
  (e.lines.map fun l => (scanLine l.data).1).flatten

/-- All double-brace constant names occurring across the buffer, in order,
with multiplicity. -/
def rawConstants (e : Editor) : List String :=
  (e.lines.map fun l => (scanLine l.data).2).flatten

/-- Modelled from the spec: `Editor.templates` (spec §4.3): the distinct
template names found across all current lines. -/
def Editor.templates (e : Editor) : List String := (rawTemplates e).dedup

/-- Modelled from the spec: `Editor.constants` (spec §4.3): the distinct
constant names found across all current lines. -/
def Editor.constants (e : Editor) : List String := (rawConstants e).dedup

/-- The order in which the cyclic search visits line indices from cursor
`c` in a buffer of `n` lines, as fixed by the unit test
(`test_find_next`: the observed results are 6, then 2, then 6 for matches
at indices 2 and 6 starting from cursor 0): indices are visited in
descending order starting just below the cursor, wrapping past 0 to the
end. -/
def scanOrder (n c : Nat) : List Nat :=
  (List.range c).reverse ++ ((List.range n).drop c).reverse

/-- Modelled from the spec: `Editor.find_next(pattern, which, reset)`
(spec §4.4), with the cyclic visiting order pinned by the unit test: a
match is a line containing the pattern as a substring; the scan visits
indices in descending cyclic order from the cursor (after resetting the
cursor to 0 when `reset` is set); on success the cursor moves to the found
index; on failure the result is a distinguished `none` and the cursor is
unchanged. -/
def Editor.find_next (e : Editor) (pattern : String) (reset : Bool) :
    Option (Nat × Editor) :=
  let c := if reset then 0 else e.cursor
  let hit := (scanOrder e.lines.length c).find? fun i =>
    match e.lines.get? i with
    | some l => occursIn pattern.data l.data
    | none => false
  match hit with
  | some i => some (i, { e with cursor := i })
  | none => none

/-- The search rule exactly as the claim states it: matches are visited in
ascending index order with wraparound back to the smallest, and
`reset = true` restarts the scan from index 0 with index 0 itself
eligible.  Stated from the claim's words, for comparison against the
behaviour the unit test records. -/
def claimScanOrder (n c : Nat) (reset : Bool) : List Nat :=
  if reset then List.range n
  else (List.range n).drop (c + 1) ++ List.range (c + 1)

/-- The claim's version of `find_next`, using `claimScanOrder`. -/
def find_next_claimRule (e : Editor) (pattern : String) (reset : Bool) :
    Option (Nat × Editor) :=
  let hit := (claimScanOrder e.lines.length e.cursor reset).find? fun i =>
    match e.lines.get? i with
    | some l => occursIn pattern.data l.data
    | none => false
  match hit with
  | some i => some (i, { e with cursor := i })
  | none => none

/-- The literal test content `editor_string` from
`src/exa/cms/editors/tests/test_editor.py` (lines 21-27). -/
def editor_string : String :=
  "This string is used as the test for the editor class.\n\nThat was a blank line\nIt contains templates: \x7btemplate\x7d\nand constants: \x7b\x7bconstant\x7d\x7d\n\nThat was a blank line"

/-- The search pattern used by `test_find_next`
(`src/exa/cms/editors/tests/test_editor.py` line 130). -/
def findNextPattern : String := "That was a blank line"

namespace Isotope

/-- One row of the isotope table, restricted to the columns the radius
mappers of `src/exa/cms/isotope.py` read: `symbol` and `radius`. -/
structure Row where
  symbol : String
  radius : ℚ
deriving Repr, DecidableEq

/-- Embeds `DataFrame.drop_duplicates("symbol")`: keep the first row for each
symbol, in order (`src/exa/cms/isotope.py` lines 188, 210). -/
def dropDuplicatesSymbol : List String → List Row → List Row
  | _, [] => []
  | seen, r :: rest =>
    if r.symbol ∈ seen then dropDuplicatesSymbol seen rest
    else r :: dropDuplicatesSymbol (r.symbol :: seen) rest

/-- The first `symbol_to_radius` of `src/exa/cms/isotope.py` (lines
186-194): a mapper from concatenated symbol pairs to the sum of the two
covalent radii, built positionally from `itertools.product` over the
deduplicated symbols and radii. -/
def symbol_to_radius_pairs (table : List Row) : List (String × ℚ) :=
  let df := dropDuplicatesSymbol [] table
  (df.map fun a => df.map fun b => (a.symbol ++ b.symbol, a.radius + b.radius)).flatten

/-- The second `symbol_to_radius` of `src/exa/cms/isotope.py` (lines
208-211): a mapper from a single isotope symbol to its covalent radius. -/
def symbol_to_radius_single (table : List Row) : List (String × ℚ) :=
  (dropDuplicatesSymbol [] table).map fun r => (r.symbol, r.radius)

/-- Tags for the module-level function definitions of
`src/exa/cms/isotope.py`, in their source order. -/
inductive ModuleDef
  | elementsDef
  | symbolToZnum
  | znumToSymbol
  | symbolToRadiusPairs
  | symbolToElementMass
  | symbolToRadiusSingle
  | symbolToColor
deriving Repr, DecidableEq

/-- The sequence of top-level `def` statements of `src/exa/cms/isotope.py`
(lines 150, 160, 175, 186, 197, 208, 214), in source order: the name
`symbol_to_radius` is bound twice. -/
def moduleDefs : List (String × ModuleDef) :=
  [("elements", .elementsDef),
   ("symbol_to_znum", .symbolToZnum),
   ("znum_to_symbol", .znumToSymbol),
   ("symbol_to_radius", .symbolToRadiusPairs),
   ("symbol_to_element_mass", .symbolToElementMass),
   ("symbol_to_radius", .symbolToRadiusSingle),
   ("symbol_to_color", .symbolToColor)]

/-- Python module execution binds top-level names sequentially; a later
`def` of the same name replaces the earlier one, so a lookup sees the
latest binding. -/
def moduleEnv (defs : List (String × ModuleDef)) (n : String) :
    Option ModuleDef :=
  defs.reverse.lookup n

/-- The semantics a caller obtains for each radius-mapper tag. -/
def radiusSemantics : ModuleDef → Option (List Row → List (String × ℚ))
  | .symbolToRadiusPairs => some symbol_to_radius_pairs
  | .symbolToRadiusSingle => some symbol_to_radius_single
  | _ => none

end Isotope

/-- Join a list of lines with a separator, modelling the `str.join`
rendering used when writing lines back out (spec §6: rendering the whole
Editor joins all lines with a single newline separator). -/
def joinSep (sep : String) : List String → String
  | [] => ""
  | [l] => l
  | l :: ls => l ++ sep ++ joinSep sep ls

/-- A (trivially) lossless codec, used to instantiate codec hypotheses in
witnesses. -/
def trivialCodec : Codec := ⟨id, id⟩

/-- A pattern has a border when some nonempty proper prefix of it is also a
suffix; `unbordered` rules that out.  (Self-overlapping replacement text is
what breaks the replace round-trip.) -/
abbrev unbordered (p : List Char) : Prop :=
  ∀ k ∈ List.range p.length, 0 < k → p.take k ≠ p.drop (p.length - k)

/-- Substring occurrence as a proposition: `SubL a b` holds when `a` occurs contiguously inside `b`. -/
def SubL (a b : List Char) : Prop :=
  ∃ pre post, b = pre ++ a ++ post

/-! ## Theorems -/

/-- C8: for every pair of Editors `a` and `b`, `concat a b` produces a new
Editor whose length is `len a + len b`, whose first `len a` lines are
exactly `a`'s lines and whose remaining lines are exactly `b`'s lines
(element-wise concatenation in argument order); in this purely functional
embedding the inputs are values, so neither is mutated. -/
theorem C8_concat_spec (a b : Editor) :
    (concat a b).lines.length = a.lines.length + b.lines.length ∧
    (concat a b).lines.take a.lines.length = a.lines ∧
    (concat a b).lines.drop a.lines.length = b.lines := by
  refine ⟨by simp [concat], ?_, ?_⟩
  · simp [concat, List.take_left]
  · simp [concat, List.drop_left]

/-- C9: deletion at an out-of-range index (in particular at an index equal
to the buffer length, and at any index on an empty buffer) signals the
`IndexError`-kind failure (`none`) instead of mutating or clamping, and a
successful deletion removes exactly one line (no partial splice: failure
produces no new buffer state at all). -/
theorem C9_delete_out_of_range :
    (∀ (e : Editor) (i : Int),
        ¬(0 ≤ resolveIndex e.lines.length i ∧
            resolveIndex e.lines.length i < e.lines.length) →
        e.delete_at i = none) ∧
    (∀ e : Editor, e.delete_at (e.lines.length : Int) = none) ∧
    (∀ e : Editor, e.lines = [] → ∀ i : Int, e.delete_at i = none) ∧
    (∀ (e e' : Editor) (i : Int), e.delete_at i = some e' →
        e'.lines.length + 1 = e.lines.length) := by
  refine ⟨?_, ?_, ?_, ?_⟩
  · intro e i h
    simp only [Editor.delete_at]
    exact if_neg h
  · intro e
    have hno : ¬(0 ≤ resolveIndex e.lines.length (e.lines.length : Int) ∧
        resolveIndex e.lines.length (e.lines.length : Int) <
          (e.lines.length : Int)) := by
      simp only [resolveIndex]
      split <;> omega
    simp only [Editor.delete_at]
    exact if_neg hno
  · intro e he i
    have hno : ¬(0 ≤ resolveIndex e.lines.length i ∧
        resolveIndex e.lines.length i < (e.lines.length : Int)) := by
      rw [he]
      simp only [resolveIndex, List.length_nil, Nat.cast_zero]
      split <;> omega
    simp only [Editor.delete_at]
    exact if_neg hno
  · intro e e' i h
    simp only [Editor.delete_at] at h
    split at h
    · rename_i hr
      cases h
      have hlt : (resolveIndex e.lines.length i).toNat < e.lines.length := by
        omega
      simp only [List.length_eraseIdx_of_lt hlt]
      omega
    · exact absurd h (by simp)

/-- Witness for C9: deleting index 1 of a one-line buffer (an index equal to
the buffer length) fails with `none`. -/
theorem C9_delete_out_of_range_witness :
    Editor.delete_at ⟨["a"], 0, "utf-8"⟩ 1 = none :=
  C9_delete_out_of_range.1 ⟨["a"], 0, "utf-8"⟩ 1 (by decide)

/-- C10: in `exa/cms/isotope.py` the name `symbol_to_radius` is bound twice
at module level; sequential module execution makes the later definition (the
single-symbol covalent-radius mapper) the one every lookup of the name
receives, the earlier pair-sum mapper is reachable under no module name, and
the two mappers genuinely differ (on the one-row table `[("H", 1)]` the
earlier yields `[("HH", 2)]`, the later `[("H", 1)]`). -/
theorem C10_symbol_to_radius_shadowed :
    Isotope.moduleEnv Isotope.moduleDefs "symbol_to_radius" =
      some Isotope.ModuleDef.symbolToRadiusSingle ∧
    Isotope.radiusSemantics Isotope.ModuleDef.symbolToRadiusSingle =
      some Isotope.symbol_to_radius_single ∧
    (∀ n, Isotope.moduleEnv Isotope.moduleDefs n ≠
      some Isotope.ModuleDef.symbolToRadiusPairs) ∧
    Isotope.symbol_to_radius_pairs [⟨"H", 1⟩] ≠
      Isotope.symbol_to_radius_single [⟨"H", 1⟩] := by
  refine ⟨by decide, rfl, ?_, by decide⟩
  intro n h
  simp only [Isotope.moduleEnv, Isotope.moduleDefs, List.reverse_cons,
    List.reverse_nil, List.nil_append, List.cons_append, List.lookup] at h
  split at h
  · simp at h
  · split at h
    · simp at h
    · split at h
      · simp at h
      · split at h
        · rename_i h1 h2 h3 h4
          simp_all
        · split at h
          · simp at h
          · split at h
            · simp at h
            · split at h
              · simp at h
              · simp at h

/-- Witness for C10: looking up `symbol_to_radius` in the module
environment yields the later, single-symbol definition. -/
theorem C10_symbol_to_radius_shadowed_witness :
    Isotope.moduleEnv Isotope.moduleDefs "symbol_to_radius" =
      some Isotope.ModuleDef.symbolToRadiusSingle :=
  C10_symbol_to_radius_shadowed.1

/-- C7: on every buffer containing exactly two blank lines (lines whose
content strips to empty), `remove_blank_lines` reduces the line count by
exactly 2, and the surviving lines are a sublist of the original lines
(relative order preserved). -/
theorem C7_remove_blank_lines (e : Editor)
    (h : (e.lines.filter (fun l => isBlank l)).length = 2) :
    e.remove_blank_lines.lines.length = e.lines.length - 2 ∧
    e.remove_blank_lines.lines.Sublist e.lines := by
  constructor
  · have := List.length_eq_length_filter_add (l := e.lines)
      (fun l => isBlank l)
    simp only [Editor.remove_blank_lines]
    omega
  · exact List.filter_sublist e.lines

/-- Witness for C7: the test content has exactly two blank lines; removing
them takes the buffer from 7 lines to 5. -/
theorem C7_remove_blank_lines_witness :
    ((editorFromString editor_string).lines.filter
        (fun l => isBlank l)).length = 2 ∧
    (editorFromString editor_string).remove_blank_lines.lines.length =
      (editorFromString editor_string).lines.length - 2 :=
  ⟨by decide, (C7_remove_blank_lines (editorFromString editor_string)
      (by decide)).1⟩

theorem char_not_nl {c : Char} (h1 : ¬c = '\r') (h2 : ¬c = '\n') :
    (!isNL c) = true := by
  simp only [isNL, Bool.not_eq_true', Bool.or_eq_false_iff]
  constructor <;> simp only [beq_eq_false_iff_ne, ne_eq] <;> assumption

theorem splitUniv_segments_no_nl :
    ∀ cs acc, acc.all (fun c => !isNL c) = true →
      ∀ seg ∈ splitUniv cs acc, seg.all (fun c => !isNL c) = true := by
  intro cs acc
  induction cs, acc using splitUniv.induct with
  | case1 acc =>
    intro hacc seg hseg
    simp only [splitUniv, List.mem_singleton] at hseg
    subst hseg
    simpa using hacc
  | case2 c acc h =>
    intro hacc seg hseg
    simp only [splitUniv, if_pos h, List.mem_cons, List.mem_singleton] at hseg
    rcases hseg with hseg | hseg | hseg
    · subst hseg; simpa using hacc
    · simp [hseg]
    · simp at hseg
  | case3 c acc h =>
    intro hacc seg hseg
    push_neg at h
    have hcond : ¬(c = '\r' ∨ c = '\n') := by tauto
    simp only [splitUniv, if_neg hcond, List.mem_singleton] at hseg
    subst hseg
    simp only [List.all_eq_true] at hacc ⊢
    intro x hx
    simp only [List.mem_reverse, List.mem_cons] at hx
    rcases hx with hx | hx
    · subst hx; exact char_not_nl h.1 h.2
    · exact hacc x hx
  | case4 rest acc ih =>
    intro hacc seg hseg
    simp only [splitUniv, reduceIte, List.mem_cons] at hseg
    rcases hseg with hseg | hseg
    · subst hseg; simpa using hacc
    · exact ih (by simp) seg hseg
  | case5 d rest acc hd ih =>
    intro hacc seg hseg
    simp only [splitUniv, reduceIte, if_neg hd, List.mem_cons] at hseg
    rcases hseg with hseg | hseg
    · subst hseg; simpa using hacc
    · exact ih (by simp) seg hseg
  | case6 d rest acc hne ih =>
    intro hacc seg hseg
    have hx : ¬('\n' = '\r') := by decide
    simp only [splitUniv, if_neg hx, if_true, List.mem_cons] at hseg
    rcases hseg with hseg | hseg
    · subst hseg; simpa using hacc
    · exact ih (by simp) seg hseg
  | case7 c d rest acc hc hn ih =>
    intro hacc seg hseg
    simp only [splitUniv, if_neg hc, if_neg hn] at hseg
    apply ih _ seg hseg
    simp only [List.all_cons, Bool.and_eq_true]
    exact ⟨char_not_nl hc hn, hacc⟩

/-- C5: mutating operations split multi-line input into individual line
elements before insertion: on every buffer, appending `"new\nlines"` makes
the last line `"lines"`, prepending it makes line 1 `"lines"`, and no
element produced by input splitting ever contains an embedded newline
character. -/
theorem C5_mutation_splits_input (e : Editor) :
    (e.append "new\nlines").lines.getLast? = some "lines" ∧
    (e.prepend "new\nlines").lines.get? 1 = some "lines" ∧
    (∀ t l, l ∈ splitInput t → l.data.all (fun c => !isNL c) = true) := by
  have hs : splitInput "new\nlines" = ["new", "lines"] := by decide
  refine ⟨?_, ?_, ?_⟩
  · show (e.lines ++ splitInput "new\nlines").getLast? = some "lines"
    rw [hs, List.getLast?_append_of_ne_nil _ (by simp)]
    rfl
  · show (splitInput "new\nlines" ++ e.lines).get? 1 = some "lines"
    rw [hs, List.get?_append (by simp)]
    rfl
  · intro t l hl
    simp only [splitInput, textToLines] at hl
    rw [List.mem_map] at hl
    obtain ⟨seg, hseg, rfl⟩ := hl
    have hmem : seg ∈ splitUniv t.data [] := by
      by_cases hnl : endsNL t.data
      · rw [if_pos hnl] at hseg
        exact (List.dropLast_sublist _).mem hseg
      · rwa [if_neg hnl] at hseg
    have := splitUniv_segments_no_nl t.data [] (by simp) seg hmem
    simpa [List.asString] using this

/-- Witness for C5: on the concrete test buffer the appended block ends in
`"lines"`, and the element `"a"` of the split of `"a\nb"` is
newline-free. -/
theorem C5_mutation_splits_input_witness :
    ((editorFromString editor_string).append "new\nlines").lines.getLast? =
      some "lines" ∧
    "a".data.all (fun c => !isNL c) = true :=
  ⟨(C5_mutation_splits_input (editorFromString editor_string)).1,
   (C5_mutation_splits_input (editorFromString editor_string)).2.2
     "a\nb" "a" (by decide)⟩

/-- C2 counterexample: on the unit test's buffer (pattern matching at lines
2 and 6, cursor 0) the claim's rule — ascending visiting order with
`reset = true` scanning from index 0, index 0 eligible — yields 2 for the
first reset call, but the Editor (as pinned by
`src/exa/cms/editors/tests/test_editor.py` line 131, which asserts 6)
yields 6; hence the claimed rule does not determine the observed
sequence. -/
theorem C2_find_next_counterexample :
    ((editorFromString editor_string).find_next findNextPattern true).map
        Prod.fst = some 6 ∧
    (find_next_claimRule (editorFromString editor_string) findNextPattern
        true).map Prod.fst = some 2 ∧
    ((editorFromString editor_string).find_next findNextPattern true).map
        Prod.fst ≠
      (find_next_claimRule (editorFromString editor_string) findNextPattern
        true).map Prod.fst := by
  refine ⟨by decide, by decide, by decide⟩

/-- C2 (amended): `find_next` visits the match indices cyclically in
descending index order, starting just below the cursor and wrapping past 0
to the end; `reset = true` restarts the scan deterministically from cursor
0 regardless of prior cursor state.  On the test buffer (matches at lines
2 and 6, cursor 0) the observed sequence for a reset call followed by two
plain calls is 6, then 2, then 6, exactly as the unit test asserts. -/
theorem C2_find_next_amended :
    (∀ (e : Editor) (pat : String) (c : Nat),
        (Editor.find_next { e with cursor := c } pat true).map Prod.fst =
          (e.find_next pat true).map Prod.fst) ∧
    ((editorFromString editor_string).find_next findNextPattern true).map
        Prod.fst = some 6 ∧
    (((editorFromString editor_string).find_next findNextPattern true).bind
        (fun p => p.2.find_next findNextPattern false)).map Prod.fst =
      some 2 ∧
    ((((editorFromString editor_string).find_next findNextPattern
            true).bind
          (fun p => p.2.find_next findNextPattern false)).bind
        (fun p => p.2.find_next findNextPattern false)).map Prod.fst =
      some 6 := by
  refine ⟨?_, by decide, by decide, by decide⟩
  intro e pat c
  simp only [Editor.find_next, if_true]

/-- C3: on every buffer whose raw token scan finds exactly one single-brace
occurrence, named `template`, and exactly one double-brace occurrence,
named `constant`, the derived `templates` and `constants` results are the
singleton name sets `{template}` and `{constant}` respectively with no
overlap; moreover on every buffer both results are duplicate-free (sets of
distinct names). -/
theorem C3_templates_constants (e : Editor)
    (ht : rawTemplates e = ["template"])
    (hc : rawConstants e = ["constant"]) :
    e.templates = ["template"] ∧
    e.constants = ["constant"] ∧
    (∀ n, n ∈ e.templates → n ∉ e.constants) ∧
    (∀ e' : Editor, e'.templates.Nodup ∧ e'.constants.Nodup) := by
  have h1 : e.templates = ["template"] := by
    rw [Editor.templates, ht]
    rfl
  have h2 : e.constants = ["constant"] := by
    rw [Editor.constants, hc]
    rfl
  refine ⟨h1, h2, ?_, ?_⟩
  · intro n hn
    rw [h1] at hn
    rw [h2]
    simp only [List.mem_singleton] at hn
    subst hn
    decide
  · intro e'
    exact ⟨List.nodup_dedup _, List.nodup_dedup _⟩

/-- Witness for C3: the test content contains exactly the single-brace
token `{template}` and the double-brace token `{{constant}}`, and the
derived results are the expected singleton sets. -/
theorem C3_templates_constants_witness :
    rawTemplates (editorFromString editor_string) = ["template"] ∧
    (editorFromString editor_string).templates = ["template"] ∧
    (editorFromString editor_string).constants = ["constant"] :=
  ⟨by decide,
   (C3_templates_constants (editorFromString editor_string)
     (by decide) (by decide)).1,
   (C3_templates_constants (editorFromString editor_string)
     (by decide) (by decide)).2.1⟩

/-- C1: for every logical text content, the Editors produced by the plain
file path, the explicit-alternate-encoding file path (re-encoded
losslessly), the gzip path, the bzip2 path, the stream path and the
literal-string path are pairwise equal, where the byte-level hypotheses
state exactly that the files hold lossless encodings of the content and
the codecs are lossless (spec §4.1, §6); Editor equality compares the
`lines` sequences element-wise only, ignoring encoding, source origin and
cursor. -/
theorem C1_construction_paths_equal
    (s : String) (defEnc altEnc : Encoding) (gz bz : Codec)
    (bs bs2 : List Nat)
    (henc : defEnc.encode s = some bs)
    (hdec : defEnc.decode bs = some s)
    (henc2 : altEnc.encode s = some bs2)
    (hdec2 : altEnc.decode bs2 = some s)
    (hgz : gz.lossless) (hbz : bz.lossless) :
    ∃ eF eE eG eB,
      editorFromFile defEnc bs = some eF ∧
      editorFromFileEnc altEnc bs2 = some eE ∧
      editorFromGzip defEnc gz (gz.compress bs) = some eG ∧
      editorFromBz2 defEnc bz (bz.compress bs) = some eB ∧
      List.Pairwise (fun a b => editorBeq a b = true)
        [eF, eE, eG, eB, editorFromStream s, editorFromString s] ∧
      (∀ a b : Editor, editorBeq a b = true ↔ a.lines = b.lines) := by
  refine ⟨Editor.fromText s defEnc.name, Editor.fromText s altEnc.name,
    Editor.fromText s defEnc.name, Editor.fromText s defEnc.name,
    ?_, ?_, ?_, ?_, ?_, ?_⟩
  · simp [editorFromFile, hdec]
  · simp [editorFromFileEnc, hdec2]
  · simp [editorFromGzip, editorFromFile, hgz bs, hdec]
  · simp [editorFromBz2, editorFromFile, hbz bs, hdec]
  · simp [editorBeq, Editor.fromText, editorFromStream, editorFromString,
      List.pairwise_cons]
  · intro a b
    simp [editorBeq]

/-- Witness for C1: the six construction paths over the content
`"ab\ncd"`, with latin-1 as both the default and the alternate encoding
and the trivial codec for gzip and bzip2, produce pairwise equal
Editors. -/
theorem C1_construction_paths_equal_witness :
    ∃ eF eE eG eB,
      editorFromFile latin1 ("ab\ncd".data.map Char.toNat) = some eF ∧
      editorFromFileEnc latin1 ("ab\ncd".data.map Char.toNat) = some eE ∧
      editorFromGzip latin1 trivialCodec
        (trivialCodec.compress ("ab\ncd".data.map Char.toNat)) = some eG ∧
      editorFromBz2 latin1 trivialCodec
        (trivialCodec.compress ("ab\ncd".data.map Char.toNat)) = some eB ∧
      List.Pairwise (fun a b => editorBeq a b = true)
        [eF, eE, eG, eB, editorFromStream "ab\ncd",
          editorFromString "ab\ncd"] ∧
      (∀ a b : Editor, editorBeq a b = true ↔ a.lines = b.lines) :=
  C1_construction_paths_equal "ab\ncd" latin1 latin1 trivialCodec
    trivialCodec ("ab\ncd".data.map Char.toNat)
    ("ab\ncd".data.map Char.toNat) (by decide) (by decide) (by decide)
    (by decide) (fun _ => rfl) (fun _ => rfl)

theorem splitUniv_cons_ord (c : Char) (t acc : List Char)
    (h1 : ¬c = '\r') (h2 : ¬c = '\n') :
    splitUniv (c :: t) acc = splitUniv t (c :: acc) := by
  cases t with
  | nil =>
    have hcond : ¬(c = '\r' ∨ c = '\n') := by tauto
    simp [splitUniv, if_neg hcond]
  | cons d rest =>
    simp [splitUniv, if_neg h1, if_neg h2]

theorem splitUniv_cons_lf (t acc : List Char) :
    splitUniv ('\n' :: t) acc = acc.reverse :: splitUniv t [] := by
  cases t with
  | nil => simp [splitUniv]
  | cons d rest =>
    have hx : ¬('\n' = '\r') := by decide
    simp [splitUniv, if_neg hx]

theorem splitUniv_cons_cr (t acc : List Char) (h : t.head? ≠ some '\n') :
    splitUniv ('\r' :: t) acc = acc.reverse :: splitUniv t [] := by
  cases t with
  | nil => simp [splitUniv]
  | cons d rest =>
    have hd : ¬d = '\n' := by
      intro hdn
      exact h (by simp [hdn])
    simp [splitUniv, if_neg hd]

theorem splitUniv_cons_crlf (t acc : List Char) :
    splitUniv ('\r' :: '\n' :: t) acc = acc.reverse :: splitUniv t [] := by
  simp [splitUniv]

theorem getLast_tail_ne_cr (x : Char) (xs : List Char)
    (h : (x :: xs).getLast? ≠ some '\r') : xs.getLast? ≠ some '\r' := by
  cases xs with
  | nil => simp
  | cons y ys => rwa [List.getLast?_cons_cons] at h

theorem splitUniv_append_term :
    ∀ n cs acc, cs.length ≤ n →
      ((cs.getLast? ≠ some '\r' →
        splitUniv (cs ++ ['\n']) acc = splitUniv cs acc ++ [[]]) ∧
      splitUniv (cs ++ ['\r']) acc = splitUniv cs acc ++ [[]] ∧
      splitUniv (cs ++ ['\r', '\n']) acc = splitUniv cs acc ++ [[]]) := by
  intro n
  induction n with
  | zero =>
    intro cs acc hlen
    have : cs = [] := List.eq_nil_of_length_eq_zero (Nat.le_zero.mp hlen)
    subst this
    refine ⟨fun _ => ?_, ?_, ?_⟩ <;> simp [splitUniv]
  | succ n ih =>
    intro cs acc hlen
    match cs with
    | [] => refine ⟨fun _ => ?_, ?_, ?_⟩ <;> simp [splitUniv]
    | x :: xs =>
      simp only [List.length_cons, Nat.succ_le_succ_iff] at hlen
      by_cases hx1 : x = '\r'
      · subst hx1
        match xs with
        | [] =>
          refine ⟨fun hno => ?_, ?_, ?_⟩
          · exact absurd (by decide) hno
          · rw [List.cons_append, List.nil_append,
              splitUniv_cons_cr ['\r'] acc (by decide)]
            simp [splitUniv]
          · rw [List.cons_append, List.nil_append,
              splitUniv_cons_cr ['\r', '\n'] acc (by decide)]
            simp [splitUniv]
        | y :: ys =>
          by_cases hy : y = '\n'
          · subst hy
            have hys : ys.length ≤ n := by
              simp only [List.length_cons] at hlen
              omega
            have ihy := ih ys [] hys
            have hlast : ('\r' :: '\n' :: ys).getLast? ≠ some '\r' →
                ys.getLast? ≠ some '\r' := fun h =>
              getLast_tail_ne_cr _ _ (getLast_tail_ne_cr _ _ h)
            refine ⟨fun hno => ?_, ?_, ?_⟩
            · rw [List.cons_append, List.cons_append,
                splitUniv_cons_crlf, splitUniv_cons_crlf,
                ihy.1 (hlast hno)]
              simp
            · rw [List.cons_append, List.cons_append,
                splitUniv_cons_crlf, splitUniv_cons_crlf, ihy.2.1]
              simp
            · rw [List.cons_append, List.cons_append,
                splitUniv_cons_crlf, splitUniv_cons_crlf, ihy.2.2]
              simp
          · have hxs : (y :: ys).length ≤ n := hlen
            have ihx := ih (y :: ys) [] hxs
            have hhead : ∀ t : List Char,
                ((y :: ys) ++ t).head? ≠ some '\n' := by
              intro t
              simp only [List.cons_append, List.head?_cons]
              intro hcon
              exact hy (by injection hcon)
            have hhead0 : (y :: ys).head? ≠ some '\n' := by
              simp only [List.head?_cons]
              intro hcon
              exact hy (by injection hcon)
            refine ⟨fun hno => ?_, ?_, ?_⟩
            · rw [List.cons_append, splitUniv_cons_cr _ acc (hhead _),
                splitUniv_cons_cr _ acc hhead0,
                ihx.1 (getLast_tail_ne_cr _ _ hno)]
              simp
            · rw [List.cons_append, splitUniv_cons_cr _ acc (hhead _),
                splitUniv_cons_cr _ acc hhead0, ihx.2.1]
              simp
            · rw [List.cons_append, splitUniv_cons_cr _ acc (hhead _),
                splitUniv_cons_cr _ acc hhead0, ihx.2.2]
              simp
      · by_cases hx2 : x = '\n'
        · subst hx2
          have ihx := ih xs [] hlen
          refine ⟨fun hno => ?_, ?_, ?_⟩
          · rw [List.cons_append, splitUniv_cons_lf, splitUniv_cons_lf,
              ihx.1 (getLast_tail_ne_cr _ _ hno)]
            simp
          · rw [List.cons_append, splitUniv_cons_lf, splitUniv_cons_lf,
              ihx.2.1]
            simp
          · rw [List.cons_append, splitUniv_cons_lf, splitUniv_cons_lf,
              ihx.2.2]
            simp
        · have ihx := ih xs (x :: acc) hlen
          refine ⟨fun hno => ?_, ?_, ?_⟩
          · rw [List.cons_append, splitUniv_cons_ord x _ acc hx1 hx2,
              splitUniv_cons_ord x _ acc hx1 hx2,
              ihx.1 (getLast_tail_ne_cr _ _ hno)]
          · rw [List.cons_append, splitUniv_cons_ord x _ acc hx1 hx2,
              splitUniv_cons_ord x _ acc hx1 hx2, ihx.2.1]
          · rw [List.cons_append, splitUniv_cons_ord x _ acc hx1 hx2,
              splitUniv_cons_ord x _ acc hx1 hx2, ihx.2.2]

theorem not_nl_ne {c : Char} (h : (!isNL c) = true) :
    ¬c = '\r' ∧ ¬c = '\n' := by
  simp only [isNL, Bool.not_eq_true', Bool.or_eq_false_iff,
    beq_eq_false_iff_ne, ne_eq] at h
  exact ⟨h.2, h.1⟩

theorem endsNL_of_all_nonl {cs : List Char}
    (h : cs.all (fun c => !isNL c) = true) : endsNL cs = false := by
  rw [endsNL]
  cases hl : cs.getLast? with
  | none => rfl
  | some c =>
    have hc : c ∈ cs := List.mem_of_mem_getLast? hl
    have := List.all_eq_true.mp h c hc
    simpa using this

theorem endsNL_false_ne_cr {cs : List Char} (h : endsNL cs = false) :
    cs.getLast? ≠ some '\r' := by
  intro hcon
  rw [endsNL, hcon] at h
  simp [isNL] at h

theorem endsNL_append {a b : List Char} (hb : b ≠ []) :
    endsNL (a ++ b) = endsNL b := by
  rw [endsNL, endsNL, List.getLast?_append_of_ne_nil a hb]

theorem splitUniv_nonl :
    ∀ cs acc, cs.all (fun c => !isNL c) = true →
      splitUniv cs acc = [acc.reverse ++ cs] := by
  intro cs
  induction cs with
  | nil => intro acc _; simp [splitUniv]
  | cons x xs ih =>
    intro acc hall
    simp only [List.all_cons, Bool.and_eq_true] at hall
    obtain ⟨hx1, hx2⟩ := not_nl_ne hall.1
    rw [splitUniv_cons_ord x xs acc hx1 hx2, ih (x :: acc) hall.2]
    simp

theorem splitUniv_break_lf :
    ∀ (l : List Char) acc rest, l.all (fun c => !isNL c) = true →
      splitUniv (l ++ '\n' :: rest) acc =
        (acc.reverse ++ l) :: splitUniv rest [] := by
  intro l
  induction l with
  | nil => intro acc rest _; simp [splitUniv_cons_lf]
  | cons x xs ih =>
    intro acc rest hall
    simp only [List.all_cons, Bool.and_eq_true] at hall
    obtain ⟨hx1, hx2⟩ := not_nl_ne hall.1
    rw [List.cons_append, splitUniv_cons_ord x _ acc hx1 hx2,
      ih (x :: acc) rest hall.2]
    simp

theorem splitUniv_break_crlf :
    ∀ (l : List Char) acc rest, l.all (fun c => !isNL c) = true →
      splitUniv (l ++ '\r' :: '\n' :: rest) acc =
        (acc.reverse ++ l) :: splitUniv rest [] := by
  intro l
  induction l with
  | nil => intro acc rest _; simp [splitUniv_cons_crlf]
  | cons x xs ih =>
    intro acc rest hall
    simp only [List.all_cons, Bool.and_eq_true] at hall
    obtain ⟨hx1, hx2⟩ := not_nl_ne hall.1
    rw [List.cons_append, splitUniv_cons_ord x _ acc hx1 hx2,
      ih (x :: acc) rest hall.2]
    simp

theorem splitUniv_break_cr :
    ∀ (l : List Char) acc rest, l.all (fun c => !isNL c) = true →
      rest.head? ≠ some '\n' →
      splitUniv (l ++ '\r' :: rest) acc =
        (acc.reverse ++ l) :: splitUniv rest [] := by
  intro l
  induction l with
  | nil =>
    intro acc rest _ hr
    simp [splitUniv_cons_cr rest acc hr]
  | cons x xs ih =>
    intro acc rest hall hr
    simp only [List.all_cons, Bool.and_eq_true] at hall
    obtain ⟨hx1, hx2⟩ := not_nl_ne hall.1
    rw [List.cons_append, splitUniv_cons_ord x _ acc hx1 hx2,
      ih (x :: acc) rest hall.2 hr]
    simp

theorem asString_data (s : String) : s.data.asString = s := by
  cases s with
  | mk d => rfl

theorem map_data_asString (ls : List String) :
    (ls.map String.data).map List.asString = ls := by
  rw [List.map_map]
  conv_rhs => rw [← List.map_id ls]
  exact List.map_congr_left fun l _ => asString_data l

theorem joinSep_data_ne_nil (sep : String) (hsep : sep.data ≠ []) :
    ∀ ls : List String, ls ≠ [] → ls.getLast? ≠ some "" →
      (joinSep sep ls).data ≠ [] := by
  intro ls
  match ls with
  | [] => intro h _; exact absurd rfl h
  | [m] =>
    intro _ hlast
    have hm : m ≠ "" := by
      intro hcon
      exact hlast (by simp [hcon])
    show m.data ≠ []
    intro hd
    apply hm
    cases m with
    | mk d => cases hd; rfl
  | m :: m2 :: ms =>
    intro _ _
    show (m ++ sep ++ joinSep sep (m2 :: ms)).data ≠ []
    have : (m ++ sep ++ joinSep sep (m2 :: ms)).data =
        m.data ++ sep.data ++ (joinSep sep (m2 :: ms)).data := rfl
    rw [this]
    simp only [ne_eq, List.append_eq_nil, not_and]
    intro hcon
    exact absurd hcon.2 hsep

theorem endsNL_joinSep (sep : String) (hsep : sep.data ≠ []) :
    ∀ ls : List String, ls ≠ [] →
      (∀ l ∈ ls, l.data.all (fun c => !isNL c) = true) →
      ls.getLast? ≠ some "" →
      endsNL (joinSep sep ls).data = false := by
  intro ls
  induction ls with
  | nil => intro h; exact absurd rfl h
  | cons l ls ih =>
    intro _ hall hlast
    match ls with
    | [] =>
      show endsNL l.data = false
      exact endsNL_of_all_nonl (hall l (by simp))
    | m :: ms =>
      have hlast2 : (m :: ms).getLast? ≠ some "" := by
        rwa [List.getLast?_cons_cons] at hlast
      have hne := joinSep_data_ne_nil sep hsep (m :: ms) (by simp) hlast2
      show endsNL (l ++ sep ++ joinSep sep (m :: ms)).data = false
      have hd : (l ++ sep ++ joinSep sep (m :: ms)).data =
          (l.data ++ sep.data) ++ (joinSep sep (m :: ms)).data := by
        simp [List.append_assoc]
      rw [hd, endsNL_append hne]
      exact ih (by simp) (fun x hx => hall x (by simp [hx])) hlast2

theorem joinSep_cr_head :
    ∀ ls : List String,
      (∀ l ∈ ls, l.data.all (fun c => !isNL c) = true) →
      (joinSep "\r" ls).data.head? ≠ some '\n' := by
  intro ls hall
  match ls with
  | [] => simp [joinSep]
  | [m] =>
    show m.data.head? ≠ some '\n'
    cases hm : m.data with
    | nil => simp
    | cons c cs =>
      have hc : c ∈ m.data := by rw [hm]; simp
      have := List.all_eq_true.mp (hall m (by simp)) c hc
      have hne := (not_nl_ne this).2
      simp only [List.head?_cons, ne_eq, Option.some.injEq]
      exact fun hcon => hne hcon
  | m :: m2 :: ms =>
    show (m ++ "\r" ++ joinSep "\r" (m2 :: ms)).data.head? ≠ some '\n'
    have hd : (m ++ "\r" ++ joinSep "\r" (m2 :: ms)).data =
        m.data ++ '\r' :: (joinSep "\r" (m2 :: ms)).data := by
      simp [List.append_assoc]
    rw [hd]
    cases hm : m.data with
    | nil => simp
    | cons c cs =>
      have hc : c ∈ m.data := by rw [hm]; simp
      have := List.all_eq_true.mp (hall m (by simp)) c hc
      have hne := (not_nl_ne this).2
      simp only [List.cons_append, List.head?_cons, ne_eq,
        Option.some.injEq]
      exact fun hcon => hne hcon

theorem textToLines_eq (s : String) :
    textToLines s = (if endsNL s.data then (splitUniv s.data []).dropLast
      else splitUniv s.data []).map List.asString := rfl

theorem data_append_append (a b c : String) :
    (a ++ b ++ c).data = (a.data ++ b.data) ++ c.data := rfl

theorem splitUniv_joinSep_lf :
    ∀ ls : List String, ls ≠ [] →
      (∀ l ∈ ls, l.data.all (fun c => !isNL c) = true) →
      splitUniv (joinSep "\n" ls).data [] = ls.map String.data := by
  intro ls
  induction ls with
  | nil => intro h; exact absurd rfl h
  | cons l ls ih =>
    intro _ hall
    match ls with
    | [] =>
      show splitUniv l.data [] = [l.data]
      simpa using splitUniv_nonl l.data [] (hall l (by simp))
    | m :: ms =>
      have hd : (joinSep "\n" (l :: m :: ms)).data =
          l.data ++ '\n' :: (joinSep "\n" (m :: ms)).data := by
        rw [joinSep]
        · rw [data_append_append,
            show ("\n" : String).data = ['\n'] from by decide]
          simp
        · simp
      rw [hd, splitUniv_break_lf l.data [] _ (hall l (by simp)),
        ih (by simp) (fun x hx => hall x (by simp [hx]))]
      simp

theorem splitUniv_joinSep_crlf :
    ∀ ls : List String, ls ≠ [] →
      (∀ l ∈ ls, l.data.all (fun c => !isNL c) = true) →
      splitUniv (joinSep "\r\n" ls).data [] = ls.map String.data := by
  intro ls
  induction ls with
  | nil => intro h; exact absurd rfl h
  | cons l ls ih =>
    intro _ hall
    match ls with
    | [] =>
      show splitUniv l.data [] = [l.data]
      simpa using splitUniv_nonl l.data [] (hall l (by simp))
    | m :: ms =>
      have hd : (joinSep "\r\n" (l :: m :: ms)).data =
          l.data ++ '\r' :: '\n' :: (joinSep "\r\n" (m :: ms)).data := by
        rw [joinSep]
        · rw [data_append_append,
            show ("\r\n" : String).data = ['\r', '\n'] from by decide]
          simp
        · simp
      rw [hd, splitUniv_break_crlf l.data [] _ (hall l (by simp)),
        ih (by simp) (fun x hx => hall x (by simp [hx]))]
      simp

theorem splitUniv_joinSep_cr :
    ∀ ls : List String, ls ≠ [] →
      (∀ l ∈ ls, l.data.all (fun c => !isNL c) = true) →
      splitUniv (joinSep "\r" ls).data [] = ls.map String.data := by
  intro ls
  induction ls with
  | nil => intro h; exact absurd rfl h
  | cons l ls ih =>
    intro _ hall
    match ls with
    | [] =>
      show splitUniv l.data [] = [l.data]
      simpa using splitUniv_nonl l.data [] (hall l (by simp))
    | m :: ms =>
      have hd : (joinSep "\r" (l :: m :: ms)).data =
          l.data ++ '\r' :: (joinSep "\r" (m :: ms)).data := by
        rw [joinSep]
        · rw [data_append_append,
            show ("\r" : String).data = ['\r'] from by decide]
          simp
        · simp
      rw [hd, splitUniv_break_cr l.data [] _ (hall l (by simp))
          (joinSep_cr_head (m :: ms)
            (fun x hx => hall x (by simp [hx]))),
        ih (by simp) (fun x hx => hall x (by simp [hx]))]
      simp

/-- C4: construction splits on universal newline boundaries (`\n`, `\r\n`
and `\r` are each a single break, as the join round-trips show), discards
exactly the one trailing empty segment a final newline would create, and
preserves interior blank lines (the join round-trip holds for any interior
lines, blank ones included); consequently a source ending in a single
final newline (in any of the three terminator forms) yields the same lines,
and an equal Editor, as the same content without that terminator. -/
theorem C4_newline_normalization :
    (∀ s : String, endsNL s.data = false →
        textToLines (s ++ "\n") = textToLines s ∧
        textToLines (s ++ "\r\n") = textToLines s ∧
        textToLines (s ++ "\r") = textToLines s ∧
        editorBeq (editorFromString (s ++ "\n")) (editorFromString s) =
          true) ∧
    (∀ lines : List String, lines ≠ [] →
        (∀ l ∈ lines, l.data.all (fun c => !isNL c) = true) →
        lines.getLast? ≠ some "" →
        textToLines (joinSep "\n" lines) = lines ∧
        textToLines (joinSep "\r\n" lines) = lines ∧
        textToLines (joinSep "\r" lines) = lines) := by
  constructor
  · intro s h
    have hne := endsNL_false_ne_cr h
    have k1 : textToLines (s ++ "\n") = textToLines s := by
      rw [textToLines_eq, textToLines_eq]
      have hd : (s ++ "\n").data = s.data ++ ['\n'] := rfl
      have he : endsNL (s.data ++ ['\n']) = true := by
        rw [endsNL, List.getLast?_concat]
        rfl
      rw [hd, he, h, if_pos rfl, if_neg (by simp),
        (splitUniv_append_term s.data.length s.data [] le_rfl).1 hne,
        List.dropLast_concat]
    refine ⟨k1, ?_, ?_, ?_⟩
    · rw [textToLines_eq, textToLines_eq]
      have hd : (s ++ "\r\n").data = s.data ++ ['\r', '\n'] := rfl
      have he : endsNL (s.data ++ ['\r', '\n']) = true := by
        rw [endsNL, List.getLast?_append_of_ne_nil _ (by simp)]
        rfl
      rw [hd, he, h, if_pos rfl, if_neg (by simp),
        (splitUniv_append_term s.data.length s.data [] le_rfl).2.2,
        List.dropLast_concat]
    · rw [textToLines_eq, textToLines_eq]
      have hd : (s ++ "\r").data = s.data ++ ['\r'] := rfl
      have he : endsNL (s.data ++ ['\r']) = true := by
        rw [endsNL, List.getLast?_concat]
        rfl
      rw [hd, he, h, if_pos rfl, if_neg (by simp),
        (splitUniv_append_term s.data.length s.data [] le_rfl).2.1,
        List.dropLast_concat]
    · simp [editorBeq, editorFromString, Editor.fromText, k1]
  · intro lines hne hall hlast
    refine ⟨?_, ?_, ?_⟩
    · have hE := endsNL_joinSep "\n" (by decide) lines hne hall hlast
      rw [textToLines_eq, hE]
      simp only [Bool.false_eq_true, if_false]
      rw [splitUniv_joinSep_lf lines hne hall, map_data_asString]
    · have hE := endsNL_joinSep "\r\n" (by decide) lines hne hall hlast
      rw [textToLines_eq, hE]
      simp only [Bool.false_eq_true, if_false]
      rw [splitUniv_joinSep_crlf lines hne hall, map_data_asString]
    · have hE := endsNL_joinSep "\r" (by decide) lines hne hall hlast
      rw [textToLines_eq, hE]
      simp only [Bool.false_eq_true, if_false]
      rw [splitUniv_joinSep_cr lines hne hall, map_data_asString]

/-- Witness for C4: `"ab\ncd"` does not end in a newline; adding one does
not change its lines, and joining `["ab", "", "cd"]` (an interior blank
line) with each separator splits back to exactly those lines. -/
theorem C4_newline_normalization_witness :
    textToLines ("ab\ncd" ++ "\n") = textToLines "ab\ncd" ∧
    textToLines (joinSep "\r\n" ["ab", "", "cd"]) = ["ab", "", "cd"] :=
  ⟨(C4_newline_normalization.1 "ab\ncd" (by decide)).1,
   (C4_newline_normalization.2 ["ab", "", "cd"] (by simp) (by decide)
     (by decide)).2.1⟩

theorem leadsWith_iff :
    ∀ (p l : List Char), leadsWith p l = true ↔ ∃ t, l = p ++ t := by
  intro p
  induction p with
  | nil =>
    intro l
    simp [leadsWith]
  | cons x xs ih =>
    intro l
    cases l with
    | nil =>
      simp [leadsWith]
    | cons c cs =>
      simp only [leadsWith, Bool.and_eq_true, beq_iff_eq, ih cs,
        List.cons_append, List.cons.injEq]
      constructor
      · rintro ⟨rfl, t, rfl⟩
        exact ⟨t, rfl, rfl⟩
      · rintro ⟨t, rfl, rfl⟩
        exact ⟨rfl, t, rfl⟩

theorem occursIn_iff :
    ∀ (p l : List Char), occursIn p l = true ↔ SubL p l := by
  intro p l
  induction l with
  | nil =>
    simp only [occursIn, leadsWith_iff, SubL]
    constructor
    · rintro ⟨t, ht⟩
      exact ⟨[], t, ht⟩
    · rintro ⟨pre, post, h⟩
      cases pre with
      | nil => exact ⟨post, h⟩
      | cons a as => simp at h
  | cons c cs ih =>
    simp only [occursIn, Bool.or_eq_true, leadsWith_iff, ih, SubL]
    constructor
    · rintro (⟨t, ht⟩ | ⟨pre, post, hp⟩)
      · exact ⟨[], t, by simpa using ht⟩
      · exact ⟨c :: pre, post, by simp [hp]⟩
    · rintro ⟨pre, post, h⟩
      cases pre with
      | nil =>
        left
        exact ⟨post, by simpa using h⟩
      | cons a as =>
        right
        simp only [List.cons_append, List.cons.injEq] at h
        exact ⟨as, post, h.2⟩

theorem SubL_nil (l : List Char) : SubL [] l := ⟨[], l, rfl⟩

theorem SubL_drop (l : List Char) (k : Nat) : SubL (l.drop k) l :=
  ⟨l.take k, [], by simp⟩

theorem SubL_trans {a b c : List Char} (h1 : SubL a b) (h2 : SubL b c) :
    SubL a c := by
  obtain ⟨p1, q1, rfl⟩ := h1
  obtain ⟨p2, q2, rfl⟩ := h2
  exact ⟨p2 ++ p1, q1 ++ q2, by simp⟩

theorem SubL_of_append_left {a b l : List Char} (h : SubL (a ++ b) l) :
    SubL a l := by
  obtain ⟨p, q, rfl⟩ := h
  exact ⟨p, b ++ q, by simp⟩

theorem replaceGo_skip (old new : List Char) :
    ∀ (l : List Char) (k : Nat),
      replaceGo old new k l = replaceGo old new 0 (l.drop k) := by
  intro l
  induction l with
  | nil => intro k; cases k <;> simp [replaceGo]
  | cons c cs ih =>
    intro k
    cases k with
    | zero => simp
    | succ k =>
      rw [List.drop_succ_cons, ← ih k]
      rfl

theorem replaceAll_cons (old new : List Char) (c : Char) (cs : List Char) :
    replaceAll old new (c :: cs) =
      if old ≠ [] ∧ leadsWith old (c :: cs) = true then
        new ++ replaceAll old new ((c :: cs).drop old.length)
      else
        c :: replaceAll old new cs := by
  simp only [replaceAll, replaceGo]
  by_cases h : old ≠ [] ∧ leadsWith old (c :: cs) = true
  · rw [if_pos h, if_pos h, replaceGo_skip]
    congr 2
    cases hold : old with
    | nil => exact absurd hold h.1
    | cons o os => simp
  · rw [if_neg h, if_neg h]

theorem replaceAll_noop (old new : List Char) :
    ∀ l, ¬SubL old l → replaceAll old new l = l := by
  intro l
  induction l with
  | nil => intro _; rfl
  | cons c cs ih =>
    intro h
    have hno : ¬(old ≠ [] ∧ leadsWith old (c :: cs) = true) := by
      rintro ⟨_, h2⟩
      obtain ⟨t, ht⟩ := (leadsWith_iff old (c :: cs)).mp h2
      exact h ⟨[], t, by simpa using ht⟩
    rw [replaceAll_cons, if_neg hno,
      ih (fun hsub => h (SubL_trans hsub ⟨[c], [], by simp⟩))]

theorem border_contradiction {new y w : List Char} (hnb : unbordered new)
    (hw : w ≠ []) (hy : y ≠ []) (hsplit : new = w ++ y)
    (hpre : ∃ t, new = y ++ t) : False := by
  obtain ⟨t, ht⟩ := hpre
  have h1 : new.take y.length = y := by
    rw [ht]
    exact List.take_left y t
  have h2 : new.drop (new.length - y.length) = y := by
    rw [hsplit]
    have hlen : (w ++ y).length - y.length = w.length := by simp
    rw [hlen]
    exact List.drop_left w y
  have hk1 : 0 < y.length := List.length_pos.mpr hy
  have hk2 : y.length < new.length := by
    rw [hsplit]
    have := List.length_pos.mpr hw
    simp only [List.length_append]
    omega
  exact hnb y.length (List.mem_range.mpr hk2) hk1 (h1.trans h2.symm)

theorem no_spurious (old new : List Char) (l : List Char)
    (hnew : ¬SubL new l) (hnb : unbordered new) :
    ∀ t w y, SubL (w ++ t) l → new = w ++ y → w ≠ [] →
      leadsWith y (replaceAll old new t) = true → False := by
  intro t
  induction t with
  | nil =>
    intro w y hsub hsplit hw hlead
    have hy : y = [] := by
      cases y with
      | nil => rfl
      | cons e ys => simp [replaceAll, replaceGo, leadsWith] at hlead
    subst hy
    apply hnew
    rw [hsplit]
    simpa using hsub
  | cons d ds ih =>
    intro w y hsub hsplit hw hlead
    rw [replaceAll_cons] at hlead
    cases hy : y with
    | nil =>
      subst hy
      apply hnew
      rw [hsplit, List.append_nil]
      exact SubL_of_append_left hsub
    | cons e ys =>
      subst hy
      by_cases hm : old ≠ [] ∧ leadsWith old (d :: ds) = true
      · rw [if_pos hm] at hlead
        have hyle : (e :: ys).length ≤ new.length := by
          rw [hsplit]
          simp
        have hpre : ∃ t', new = (e :: ys) ++ t' := by
          obtain ⟨t2, ht2⟩ := (leadsWith_iff _ _).mp hlead
          have htake : (new ++ replaceAll old new
              ((d :: ds).drop old.length)).take (e :: ys).length =
              e :: ys := by
            rw [ht2]
            exact List.take_left _ _
          rw [List.take_append_of_le_length hyle] at htake
          have hsplitnew : new = new.take (e :: ys).length ++
              new.drop (e :: ys).length :=
            (List.take_append_drop _ _).symm
          rw [htake] at hsplitnew
          exact ⟨new.drop (e :: ys).length, hsplitnew⟩
        exact border_contradiction hnb hw (by simp) hsplit hpre
      · rw [if_neg hm] at hlead
        simp only [leadsWith, Bool.and_eq_true, beq_iff_eq] at hlead
        obtain ⟨rfl, hlead2⟩ := hlead
        apply ih (w ++ [e]) ys ?_ ?_ (by simp) hlead2
        · have : (w ++ [e]) ++ ds = w ++ e :: ds := by simp
          rw [this]
          exact hsub
        · rw [hsplit]
          simp

theorem replace_roundtrip (old new : List Char) :
    ∀ n l, l.length ≤ n → ¬SubL new l → unbordered new →
      replaceAll new old (replaceAll old new l) = l := by
  intro n
  induction n with
  | zero =>
    intro l hl _ _
    have : l = [] := List.eq_nil_of_length_eq_zero (Nat.le_zero.mp hl)
    subst this
    rfl
  | succ n ih =>
    intro l hl hnew hnb
    cases l with
    | nil => rfl
    | cons c cs =>
      have hcs : cs.length ≤ n := by
        simp only [List.length_cons, Nat.succ_le_succ_iff] at hl
        exact hl
      have hnewne : new ≠ [] := fun hn => hnew (hn ▸ SubL_nil (c :: cs))
      rw [replaceAll_cons old new c cs]
      by_cases hm : old ≠ [] ∧ leadsWith old (c :: cs) = true
      · rw [if_pos hm]
        obtain ⟨t, ht⟩ := (leadsWith_iff old (c :: cs)).mp hm.2
        have htrest : (c :: cs).drop old.length = t := by
          rw [ht]
          exact List.drop_left old t
        rw [htrest]
        have htlen : t.length ≤ n := by
          have h1 : (c :: cs).length = old.length + t.length := by
            rw [ht]
            simp
          have h2 : 0 < old.length := List.length_pos.mpr hm.1
          simp only [List.length_cons] at h1
          omega
        have htnew : ¬SubL new t := fun hsub =>
          hnew (SubL_trans hsub ⟨old, [], by simp [ht]⟩)
        have key : replaceAll new old (new ++ replaceAll old new t) =
            old ++ replaceAll new old (replaceAll old new t) := by
          obtain ⟨n0, ns, hnc⟩ :
              ∃ n0 ns, new = n0 :: ns := by
            cases new with
            | nil => exact absurd rfl hnewne
            | cons n0 ns => exact ⟨n0, ns, rfl⟩
          subst hnc
          rw [List.cons_append, replaceAll_cons (n0 :: ns) old n0 _]
          have hlw : leadsWith (n0 :: ns)
              (n0 :: (ns ++ replaceAll old (n0 :: ns) t)) = true :=
            (leadsWith_iff _ _).mpr ⟨replaceAll old (n0 :: ns) t, by simp⟩
          rw [if_pos ⟨by simp, hlw⟩]
          have hdrop : (n0 :: (ns ++ replaceAll old (n0 :: ns) t)).drop
              (n0 :: ns).length = replaceAll old (n0 :: ns) t := by
            simp only [List.length_cons, List.drop_succ_cons]
            exact List.drop_left ns _
          rw [hdrop]
        rw [key, ih t htlen htnew hnb, ht]
      · rw [if_neg hm]
        have hnolw : ¬(new ≠ [] ∧
            leadsWith new (c :: replaceAll old new cs) = true) := by
          rintro ⟨hne, hlw⟩
          obtain ⟨n0, ns, hnc⟩ : ∃ n0 ns, new = n0 :: ns := by
            cases new with
            | nil => exact absurd rfl hne
            | cons n0 ns => exact ⟨n0, ns, rfl⟩
          subst hnc
          simp only [leadsWith, Bool.and_eq_true, beq_iff_eq] at hlw
          obtain ⟨hn0, hns⟩ := hlw
          apply no_spurious old (n0 :: ns) (c :: cs) hnew hnb cs [c] ns
            ⟨[], [], by simp⟩ ?_ (by simp) hns
          rw [hn0]
          rfl
        rw [replaceAll_cons new old c (replaceAll old new cs),
          if_neg hnolw]
        congr 1
        exact ih cs hcs
          (fun hsub => hnew (SubL_trans hsub ⟨[c], [], by simp⟩)) hnb

theorem data_asString (cs : List Char) : (List.asString cs).data = cs := rfl

theorem zip_map_filter_length (f : String → String) :
    ∀ l : List String,
      ((l.zip (l.map f)).filter (fun p => p.2 != p.1)).length =
        (l.filter (fun x => f x != x)).length := by
  intro l
  induction l with
  | nil => rfl
  | cons c cs ih =>
    simp only [List.map_cons, List.zip_cons_cons, List.filter_cons]
    by_cases h : (f c != c) = true
    · rw [if_pos h, if_pos h]
      simp [ih]
    · rw [if_neg h, if_neg h]
      exact ih

/-- C6 counterexample: the claim's unconditional round-trip fails: on the
one-line buffer `["ab"]`, `replace "a" "b"` gives `["bb"]` and the reverse
`replace "b" "a"` gives `["aa"]`, not the original `["ab"]`. -/
theorem C6_replace_counterexample :
    ((((Editor.mk ["ab"] 0 "utf-8").replace "a" "b").1.replace
        "b" "a").1 ≠ Editor.mk ["ab"] 0 "utf-8") ∧
    ((((Editor.mk ["ab"] 0 "utf-8").replace "a" "b").1.replace
        "b" "a").1.lines = ["aa"]) := by
  refine ⟨by decide, by decide⟩

/-- C6 (amended): `replace old new` performs exact substring replacement
within every line, never changes the line count, and returns exactly the
number of lines whose text changed; `replace` with an `old` absent from
every line is a no-op returning zero; and the round-trip
`replace old new` then `replace new old` restores the buffer exactly
provided `new` occurs in no line of the buffer and `new` has no border (no
nonempty proper prefix of `new` is also a suffix) — the unconditional
round-trip of the original claim is refuted by the counterexample. -/
theorem C6_replace_amended :
    (∀ (e : Editor) (old new : String),
        (e.replace old new).1.lines.length = e.lines.length) ∧
    (∀ (e : Editor) (old new : String),
        (e.replace old new).2 =
          ((e.lines.zip (e.replace old new).1.lines).filter
            (fun p => p.2 != p.1)).length) ∧
    (∀ (e : Editor) (old new : String),
        (∀ l ∈ e.lines, occursIn old.data l.data = false) →
        e.replace old new = (e, 0)) ∧
    (∀ (e : Editor) (old new : String),
        (∀ l ∈ e.lines, occursIn new.data l.data = false) →
        unbordered new.data →
        ((e.replace old new).1.replace new old).1 = e) := by
  refine ⟨?_, ?_, ?_, ?_⟩
  · intro e old new
    simp [Editor.replace]
  · intro e old new
    simp only [Editor.replace]
    rw [zip_map_filter_length]
  · intro e old new h
    have hline : ∀ l ∈ e.lines, replaceLine l old new = l := by
      intro l hl
      have hnosub : ¬SubL old.data l.data := by
        intro hsub
        have hocc := (occursIn_iff old.data l.data).mpr hsub
        have hfalse := h l hl
        rw [hocc] at hfalse
        simp at hfalse
      rw [replaceLine, replaceAll_noop old.data new.data l.data hnosub,
        asString_data]
    have h1 : e.lines.map (fun l => replaceLine l old new) = e.lines :=
      calc e.lines.map (fun l => replaceLine l old new)
          = e.lines.map id := List.map_congr_left fun a ha => hline a ha
        _ = e.lines := List.map_id _
    have h2 : e.lines.filter (fun l => replaceLine l old new != l) = [] := by
      rw [List.filter_eq_nil]
      intro l hl
      simp [hline l hl]
    simp only [Editor.replace, h2, List.length_nil, h1]
  · intro e old new h hnb
    simp only [Editor.replace]
    have hroundtrip : (e.lines.map (fun l => replaceLine l old new)).map
        (fun l => replaceLine l new old) = e.lines := by
      rw [List.map_map]
      calc e.lines.map ((fun l => replaceLine l new old) ∘
            (fun l => replaceLine l old new))
          = e.lines.map id := by
            apply List.map_congr_left
            intro l hl
            simp only [Function.comp_apply, id_eq]
            have hnosub : ¬SubL new.data l.data := by
              intro hsub
              have hocc := (occursIn_iff new.data l.data).mpr hsub
              have hfalse := h l hl
              rw [hocc] at hfalse
              simp at hfalse
            rw [replaceLine, replaceLine, data_asString,
              replace_roundtrip old.data new.data l.data.length l.data
                le_rfl hnosub hnb, asString_data]
        _ = e.lines := List.map_id _
    rw [hroundtrip]

/-- Witness for C6 (amended): the unit test's round trip — replacing the
first line's sentence by `"replacement"` and back on the test buffer —
restores the buffer exactly; the hypotheses hold concretely:
`"replacement"` occurs in no line and has no border. -/
theorem C6_replace_amended_witness :
    (((editorFromString editor_string).replace
        "This string is used as the test for the editor class."
        "replacement").1.replace "replacement"
        "This string is used as the test for the editor class.").1 =
      editorFromString editor_string :=
  C6_replace_amended.2.2.2 (editorFromString editor_string)
    "This string is used as the test for the editor class."
    "replacement" (by decide) (by decide)

end Exa
